import Mathlib

/-!
Verification of the quantum-walk simulation repository (modules
`graph_utils.py`, `continuous_walk.py`, `coined_walk.py`, `search.py`).

Shallow embedding conventions:
- numpy float arithmetic is modelled by exact arithmetic: the matrix
  builders are stated over an arbitrary field (instantiated at `ℚ` for
  decidable evaluation and at `ℝ` where the evolution engine consumes
  them); the time evolution itself lives over `ℝ`/`ℂ`, with
  `scipy.linalg.expm` modelled by the mathematical matrix exponential
  `NormedSpace.exp ℂ`;
- numpy integer indexing (wrap-around of negative indices, `IndexError`
  outside `[-n, n)`) is modelled by `npIndex`;
- fallible code returns `Except String`, the string naming the Python
  exception class raised.
-/

open scoped Matrix

namespace QuantumWalks

/-- Graph as the engines consume it (spec section 3): `n` nodes indexable
`0..n-1` with a symmetric, zero-diagonal, 0/1 adjacency matrix. Rational
entries model the numpy float matrix exactly. -/
structure Graph (n : ℕ) where
  adj : Matrix (Fin n) (Fin n) ℚ
  symm : ∀ i j, adj i j = adj j i
  zeroDiag : ∀ i, adj i i = 0
  zeroOne : ∀ i j, adj i j = 0 ∨ adj i j = 1

/-- Python module `graph_utils`, `build_complete_graph`: the complete graph
on `n` nodes (adjacency 1 off the diagonal, 0 on it). -/
def build_complete_graph (n : ℕ) : Graph n where
  adj := fun i j => if i = j then 0 else 1
  symm := by
    intro i j
    show (if i = j then (0 : ℚ) else 1) = if j = i then 0 else 1
    by_cases h : i = j
    · subst h; rfl
    · rw [if_neg h, if_neg (fun hji => h hji.symm)]
  zeroDiag := by intro i; simp
  zeroOne := by
    intro i j
    by_cases h : i = j
    · left; simp [h]
    · right; simp [h]

/-- Numpy semantics of an integer index into an axis of length `n`: indices
in `[0, n)` address directly, indices in `[-n, 0)` wrap around to `n + w`,
and anything else raises `IndexError` (modelled as `none`). -/
def npIndex (n : ℕ) (w : ℤ) : Option (Fin n) :=
  if h : 0 ≤ w ∧ w < (n : ℤ) then
    some ⟨w.toNat, by omega⟩
  else if h2 : -(n : ℤ) ≤ w ∧ w < 0 then
    some ⟨(w + (n : ℤ)).toNat, by omega⟩
  else
    none

/-- Top-level names bound in module `graph_utils` when it is loaded (its two
imports and its five function definitions plus helpers). -/
def graph_utils_names : List String :=
  [("nx"), ("np"), ("build_complete_graph"), ("build_hypercube"),
   ("build_grid_2d"), ("build_cycle"), ("build_star"),
   ("classical_hitting_time"), ("get_graph_builders")]

/-- Top-level names bound in module `continuous_walk` when it is loaded. -/
def continuous_walk_names : List String :=
  [("np"), ("expm"), ("nx"), ("adjacency_hamiltonian"),
   ("evolve_continuous_walk"), ("sweep_evolution")]

/-- Python `from M import name`: binds `name` if it is a top-level name of
`M`, otherwise raises `ImportError`. -/
def fromImport (module_names : List String) (nm : String) : Except String Unit :=
  if nm ∈ module_names then Except.ok () else Except.error ("ImportError")

/-- Loading module `search` executes
`from .graph_utils import adjacency_hamiltonian` (line 8 of `search.py`)
before any of its function definitions are reached. -/
def load_search_module : Except String Unit :=
  fromImport graph_utils_names ("adjacency_hamiltonian")

/-- Module `continuous_walk`, `adjacency_hamiltonian(graph)`: despite its
docstring (which promises `H = -gamma * A`), the function body is
`np.array(nx.adjacency_matrix(graph).todense(), dtype=float)`, i.e. it
returns the adjacency matrix `A` itself, unnegated, unscaled, and takes no
`gamma` argument at all. -/
def adjacency_hamiltonian {n : ℕ} (graph : Graph n) : Matrix (Fin n) (Fin n) ℚ :=
  graph.adj

/-- Oracle projector of `search.build_search_hamiltonian`: an `n × n` zero
matrix with a single 1 at the diagonal entry of the marked vertex. -/
def oracleMatrix {n : ℕ} {K : Type} [Zero K] [One K] (w : Fin n) :
    Matrix (Fin n) (Fin n) K :=
  fun i j => if i = w ∧ j = w then 1 else 0

/-- Body of `search.build_search_hamiltonian` after the index assignment
`oracle[marked_vertex, marked_vertex] = 1.0` has resolved the marked index:
`H = -gamma * A + oracle`. -/
def search_hamiltonian_core {n : ℕ} {K : Type} [Field K] (graph : Graph n)
    (w : Fin n) (gamma : K) : Matrix (Fin n) (Fin n) K :=
  (-gamma) • graph.adj.map (fun q => (q : K)) + oracleMatrix w

/-- Module `search`, `build_search_hamiltonian(graph, marked_vertex, gamma)`:
`H = -gamma * A + oracle` with `oracle[marked_vertex, marked_vertex] = 1.0`.
The numpy assignment accepts any index in `[-n, n)` (negative indices wrap)
and raises `IndexError` otherwise (`npIndex`). The scalar field is a
parameter so the same definition serves exact (`ℚ`) and real-valued use. -/
def build_search_hamiltonian {n : ℕ} {K : Type} [Field K] (graph : Graph n)
    (marked_vertex : ℤ) (gamma : K) : Except String (Matrix (Fin n) (Fin n) K) :=
  match npIndex n marked_vertex with
  | none => Except.error ("IndexError")
  | some w => Except.ok (search_hamiltonian_core graph w gamma)

/-- Module `coined_walk`, `grover_coin(n_coin_qubits)`: the Grover diffusion
coin `(2/dim) * J - I` as a `dim × dim` table, `dim = 2^n_coin_qubits`. -/
def grover_coin (n_coin_qubits : ℕ) : List (List ℚ) :=
  let dim := 2 ^ n_coin_qubits
  (List.range dim).map fun i =>
    (List.range dim).map fun j => 2 / (dim : ℚ) - (if i = j then 1 else 0)

/-- Gates appended to the qiskit `QuantumCircuit` by the coined-walk
builder. -/
inductive Gate where
  | h (q : ℕ)
  | unitary (matrix : List (List ℚ)) (qubits : List ℕ) (label : String)
  | cx (control target : ℕ)
  | mcx (controls : List ℕ) (target : ℕ)
  | measure (q c : ℕ)
deriving DecidableEq

/-- Circuit produced by the coined-walk builder: qubit count, classical bit
count, and the gate sequence in application order. -/
structure Circuit where
  n_qubits : ℕ
  n_clbits : ℕ
  gates : List Gate
deriving DecidableEq

/-- One step of `build_coined_walk_circuit`: coin phase (Hadamard gate or
Grover-coin unitary) then the conditional-increment shift. The Python list
accesses `coin_qubits[0]` and `pos_qubits[0]` raise `IndexError` on empty
registers, modelled by the `head?` match; the in-loop access
`pos_qubits[i]` has `1 ≤ i < len(pos_qubits)` so it is total (`getD`). -/
def walk_step (coin_type : String) (n_coin : ℕ) (coin_qubits pos_qubits : List ℕ)
    (step : ℕ) : Except String (List Gate) :=
  match coin_qubits.head?, pos_qubits.head? with
  | some c0, some p0 =>
    let coinGates : List Gate :=
      if coin_type = ("hadamard") ∧ n_coin = 1 then [Gate.h c0]
      else [Gate.unitary (grover_coin n_coin) coin_qubits (("C") ++ toString step)]
    let shiftGates : List Gate :=
      Gate.cx c0 p0 ::
        (List.range (pos_qubits.length - 1)).map fun k =>
          Gate.mcx (coin_qubits.take 1 ++ pos_qubits.take (k + 1))
            (pos_qubits.getD (k + 1) 0)
    Except.ok (coinGates ++ shiftGates)
  | _, _ => Except.error ("IndexError")

/-- Module `coined_walk`, `build_coined_walk_circuit(n_position_qubits,
n_steps, coin_type)`: coin register of 1 qubit for the Hadamard coin and of
`n_position_qubits` qubits otherwise, coin-register initialization by
Hadamards, `n_steps` walk steps, and a final measurement of the position
register. Note the builder validates nothing: any `coin_type` other than
the string `hadamard` selects the Grover branch. -/
def build_coined_walk_circuit (n_position_qubits n_steps : ℕ)
    (coin_type : String) : Except String Circuit :=
  let n_coin := if coin_type = ("hadamard") then 1 else n_position_qubits
  let n_total := n_position_qubits + n_coin
  let coin_qubits := List.range n_coin
  let pos_qubits := (List.range n_position_qubits).map (fun i => n_coin + i)
  let initGates := coin_qubits.map Gate.h
  let stepGatesE : Except String (List Gate) :=
    (List.range n_steps).foldl
      (fun acc step => acc.bind fun gs =>
        (walk_step coin_type n_coin coin_qubits pos_qubits step).map
          fun sg => gs ++ sg)
      (Except.ok [])
  let measureGates := pos_qubits.enum.map fun p => Gate.measure p.2 p.1
  stepGatesE.map fun sg =>
    ⟨n_total, n_position_qubits, initGates ++ sg ++ measureGates⟩

/-- Result dictionary of `evolve_continuous_walk`: keys `probabilities` and
`state`. -/
structure EvolveResult (n : ℕ) where
  probabilities : Fin n → ℝ
  state : Fin n → ℂ

/-- Initial state of `evolve_continuous_walk`: `np.zeros(n)` with a 1 at
`initial_node` (localized basis state). The node is modelled as an in-range
index `Fin n`. -/
def basis_state (n : ℕ) (initial_node : Fin n) : Fin n → ℂ :=
  fun j => if j = initial_node then 1 else 0

/-- Evolution operator of `evolve_continuous_walk`:
`U = expm(-1j * gamma * A * time)` with `A = adjacency_hamiltonian(graph)`
(so the plain-evolution generator really is `+A`, scaled inside the
exponent). -/
noncomputable def evolve_operator {n : ℕ} (graph : Graph n)
    (time gamma : ℝ) : Matrix (Fin n) (Fin n) ℂ :=
  NormedSpace.exp ℂ
    ((-Complex.I * Complex.ofReal gamma * Complex.ofReal time) •
      (adjacency_hamiltonian graph).map (fun q => (q : ℂ)))

/-- Module `continuous_walk`, `evolve_continuous_walk(graph, initial_node,
time, gamma)`: `psi_t = U @ psi_0` and probabilities
`np.abs(psi_t) ** 2`. -/
noncomputable def evolve_continuous_walk {n : ℕ} (graph : Graph n)
    (initial_node : Fin n) (time gamma : ℝ) : EvolveResult n :=
  { probabilities := fun j =>
      Complex.normSq
        ((evolve_operator graph time gamma).mulVec (basis_state n initial_node) j)
    state := (evolve_operator graph time gamma).mulVec (basis_state n initial_node) }

/-- Result dictionary of `sweep_evolution`: keys `times` and `prob_matrix`
(row `i` of the matrix is the probability vector at `times[i]`). -/
structure SweepResult (n : ℕ) where
  times : List ℝ
  prob_matrix : List (Fin n → ℝ)

/-- Module `continuous_walk`, `sweep_evolution(graph, initial_node,
time_range, gamma)`: calls `evolve_continuous_walk` independently for each
requested time and stacks the probability vectors in input order. -/
noncomputable def sweep_evolution {n : ℕ} (graph : Graph n)
    (initial_node : Fin n) (time_range : List ℝ) (gamma : ℝ) : SweepResult n :=
  { times := time_range
    prob_matrix := time_range.map fun t =>
      (evolve_continuous_walk graph initial_node t gamma).probabilities }

/-- Numpy `np.linspace(a, b, m)`: `m` evenly spaced samples from `a` to `b`
inclusive; for `m = 1` the single sample is `a`. -/
noncomputable def linspace (a b : ℝ) (m : ℕ) : Fin m → ℝ :=
  fun i => if m = 1 then a else a + (b - a) * (i : ℕ) / ((m : ℝ) - 1)

/-- Numpy `np.argmax` over a nonempty vector: index of the first occurrence
of the maximum (a later element replaces the running best only when
strictly greater). -/
noncomputable def np_argmax {m : ℕ} (f : Fin m → ℝ) (hm : 0 < m) : Fin m :=
  (List.finRange m).foldl (fun best i => if f best < f i then i else best) ⟨0, hm⟩

/-- Result dictionary of `search_continuous_walk`: keys `optimal_time`,
`max_probability`, `times`, `success_probs`, with `m` sampled times. -/
structure SearchResult (m : ℕ) where
  optimal_time : ℝ
  max_probability : ℝ
  times : Fin m → ℝ
  success_probs : Fin m → ℝ

/-- Default coupling of `search_continuous_walk` when `gamma is None`:
`gamma = 1.0 / n`. -/
noncomputable def search_gamma (n : ℕ) (gammaOpt : Option ℝ) : ℝ :=
  gammaOpt.getD (1 / (n : ℝ))

/-- Default time horizon of `search_continuous_walk` when `time is None`:
`np.pi / 2 * np.sqrt(n)`. -/
noncomputable def search_time (n : ℕ) (timeOpt : Option ℝ) : ℝ :=
  timeOpt.getD (Real.pi / 2 * Real.sqrt n)

/-- Sampled times of `search_continuous_walk`:
`np.linspace(0, time, n_time_steps)`. -/
noncomputable def search_times (n : ℕ) (timeOpt : Option ℝ) (m : ℕ) :
    Fin m → ℝ :=
  linspace 0 (search_time n timeOpt) m

/-- Initial state of `search_continuous_walk`: the uniform superposition
`np.ones(n) / np.sqrt(n)`. -/
noncomputable def uniform_state (n : ℕ) : Fin n → ℂ :=
  fun _ => Complex.ofReal (1 / Real.sqrt n)

/-- Success-probability samples of `search_continuous_walk`: for each
sampled time `t`, `U = expm(-1j * H * t)`, `psi_t = U @ psi_0`, and
`np.abs(psi_t[marked_vertex]) ** 2`, with `H` the search Hamiltonian at
the resolved marked index `w`. -/
noncomputable def search_success_probs {n : ℕ} (graph : Graph n) (w : Fin n)
    (gammaOpt timeOpt : Option ℝ) (m : ℕ) : Fin m → ℝ :=
  fun i =>
    Complex.normSq
      ((NormedSpace.exp ℂ
          ((-Complex.I * Complex.ofReal (search_times n timeOpt m i)) •
            (search_hamiltonian_core graph w (search_gamma n gammaOpt)).map
              Complex.ofReal)).mulVec (uniform_state n) w)

/-- Module `search`, `search_continuous_walk(graph, marked_vertex, gamma,
time, n_time_steps)`: resolves the defaults, builds the search Hamiltonian
via `build_search_hamiltonian` (an out-of-range marked vertex raises
`IndexError` there), sweeps the sampled times, and returns the dictionary
with the argmax time and probability (`np.argmax` raises `ValueError` when
`n_time_steps = 0` makes the sample list empty). Python would raise
`ZeroDivisionError` computing the default `gamma` on an empty graph; that
is not modelled, and every claim about this function assumes a valid
marked vertex, which forces `n ≥ 1`. -/
noncomputable def search_continuous_walk {n : ℕ} (graph : Graph n)
    (marked_vertex : ℤ) (gammaOpt timeOpt : Option ℝ) (n_time_steps : ℕ) :
    Except String (SearchResult n_time_steps) :=
  match npIndex n marked_vertex with
  | none => Except.error ("IndexError")
  | some w =>
    if hm : 0 < n_time_steps then
      Except.ok
        { optimal_time := search_times n timeOpt n_time_steps
            (np_argmax (search_success_probs graph w gammaOpt timeOpt n_time_steps) hm)
          max_probability := search_success_probs graph w gammaOpt timeOpt n_time_steps
            (np_argmax (search_success_probs graph w gammaOpt timeOpt n_time_steps) hm)
          times := search_times n timeOpt n_time_steps
          success_probs := search_success_probs graph w gammaOpt timeOpt n_time_steps }
    else Except.error ("ValueError")

lemma npIndex_eq_none_iff (n : ℕ) (w : ℤ) :
    npIndex n w = none ↔ (w < -(n : ℤ) ∨ (n : ℤ) ≤ w) := by
  unfold npIndex
  split_ifs with h1 h2 <;> simp <;> omega

lemma npIndex_of_valid (n : ℕ) (w : ℤ) (h0 : 0 ≤ w) (hn : w < (n : ℤ)) :
    npIndex n w = some ⟨w.toNat, by omega⟩ := by
  unfold npIndex
  rw [dif_pos ⟨h0, hn⟩]

lemma build_search_hamiltonian_of_index {n : ℕ} {K : Type} [Field K]
    (graph : Graph n) (marked_vertex : ℤ) (gamma : K) (w : Fin n)
    (h : npIndex n marked_vertex = some w) :
    build_search_hamiltonian graph marked_vertex gamma =
      Except.ok (search_hamiltonian_core graph w gamma) := by
  unfold build_search_hamiltonian
  rw [h]

lemma foldl_running_max {m : ℕ} (f : Fin m → ℝ) (l : List (Fin m)) (init : Fin m) :
    f init ≤ f (l.foldl (fun best i => if f best < f i then i else best) init) ∧
    ∀ j ∈ l, f j ≤ f (l.foldl (fun best i => if f best < f i then i else best) init) := by
  induction l generalizing init with
  | nil => exact ⟨le_refl _, by simp⟩
  | cons a l ih =>
    simp only [List.foldl_cons]
    obtain ⟨h1, h2⟩ := ih (if f init < f a then a else init)
    have hinit_le : f init ≤ f (if f init < f a then a else init) := by
      by_cases h : f init < f a
      · rw [if_pos h]; exact le_of_lt h
      · rw [if_neg h]
    have ha_le : f a ≤ f (if f init < f a then a else init) := by
      by_cases h : f init < f a
      · rw [if_pos h]
      · rw [if_neg h]; exact not_lt.mp h
    refine ⟨le_trans hinit_le h1, ?_⟩
    intro j hj
    rcases List.mem_cons.mp hj with rfl | hj2
    · exact le_trans ha_le h1
    · exact h2 j hj2

lemma np_argmax_is_max {m : ℕ} (f : Fin m → ℝ) (hm : 0 < m) (j : Fin m) :
    f j ≤ f (np_argmax f hm) := by
  unfold np_argmax
  exact (foldl_running_max f (List.finRange m) ⟨0, hm⟩).2 j (List.mem_finRange j)

lemma conj_dotProduct_self {n : ℕ} (v : Fin n → ℂ) :
    star v ⬝ᵥ v = ((∑ j, Complex.normSq (v j) : ℝ) : ℂ) := by
  simp only [Matrix.dotProduct, Pi.star_apply, Complex.ofReal_sum]
  refine Finset.sum_congr rfl fun j _ => ?_
  rw [Complex.normSq_eq_conj_mul_self]
  rfl

lemma sum_normSq_mulVec_of_unitary {n : ℕ} (U : Matrix (Fin n) (Fin n) ℂ)
    (hU : Uᴴ * U = 1) (v : Fin n → ℂ) :
    ∑ j, Complex.normSq (U.mulVec v j) = ∑ j, Complex.normSq (v j) := by
  have h1 : star (U.mulVec v) ⬝ᵥ (U.mulVec v) = star v ⬝ᵥ v := by
    rw [Matrix.star_mulVec, Matrix.dotProduct_mulVec, Matrix.vecMul_vecMul, hU,
      ← Matrix.dotProduct_mulVec, Matrix.one_mulVec]
  rw [conj_dotProduct_self (U.mulVec v), conj_dotProduct_self v] at h1
  exact_mod_cast h1

lemma exp_skew_unitary {n : ℕ} (M : Matrix (Fin n) (Fin n) ℂ) (hM : Mᴴ = -M) :
    (NormedSpace.exp ℂ M)ᴴ * NormedSpace.exp ℂ M = 1 := by
  rw [← Matrix.exp_conjTranspose, hM,
    ← Matrix.exp_add_of_commute ℂ (-M) M (Commute.neg_left (Commute.refl M)),
    neg_add_cancel, NormedSpace.exp_zero]

lemma smul_conjTranspose_skew {n : ℕ} (c : ℂ) (A : Matrix (Fin n) (Fin n) ℂ)
    (hc : star c = -c) (hA : Aᴴ = A) : (c • A)ᴴ = -(c • A) := by
  rw [Matrix.conjTranspose_smul, hA, hc, neg_smul]

lemma ratCast_map_conjTranspose {n : ℕ} (graph : Graph n) :
    ((adjacency_hamiltonian graph).map (fun q => (q : ℂ)))ᴴ =
      (adjacency_hamiltonian graph).map (fun q => (q : ℂ)) := by
  ext i j
  simp only [Matrix.conjTranspose_apply, Matrix.map_apply, adjacency_hamiltonian]
  rw [graph.symm j i]
  exact map_ratCast (starRingEnd ℂ) _

lemma evolve_operator_unitary {n : ℕ} (graph : Graph n) (time gamma : ℝ) :
    (evolve_operator graph time gamma)ᴴ * evolve_operator graph time gamma = 1 := by
  apply exp_skew_unitary
  apply smul_conjTranspose_skew
  · simp only [star_mul, star_neg, Complex.star_def, Complex.conj_I,
      Complex.conj_ofReal]
    ring
  · exact ratCast_map_conjTranspose graph

lemma search_hamiltonian_core_symm {n : ℕ} (graph : Graph n) (w : Fin n)
    (gamma : ℝ) (i j : Fin n) :
    search_hamiltonian_core graph w gamma i j =
      search_hamiltonian_core graph w gamma j i := by
  simp only [search_hamiltonian_core, Matrix.add_apply, Matrix.smul_apply,
    Matrix.map_apply, oracleMatrix, smul_eq_mul]
  rw [graph.symm i j]
  congr 1
  exact if_congr and_comm rfl rfl

lemma map_ofReal_conjTranspose {n : ℕ} (A : Matrix (Fin n) (Fin n) ℝ)
    (hA : ∀ i j, A i j = A j i) :
    (A.map Complex.ofReal)ᴴ = A.map Complex.ofReal := by
  ext i j
  simp only [Matrix.conjTranspose_apply, Matrix.map_apply, Complex.star_def,
    Complex.conj_ofReal]
  rw [hA j i]

lemma linspace_apply_zero (a b : ℝ) (m : ℕ) (hm : 0 < m) :
    linspace a b m ⟨0, hm⟩ = a := by
  unfold linspace
  split <;> simp

lemma search_continuous_walk_ok {n : ℕ} (graph : Graph n) (marked_vertex : ℤ)
    (gammaOpt timeOpt : Option ℝ) (m : ℕ) (w : Fin n)
    (hw : npIndex n marked_vertex = some w) (hm : 0 < m) :
    search_continuous_walk graph marked_vertex gammaOpt timeOpt m =
      Except.ok
        { optimal_time := search_times n timeOpt m
            (np_argmax (search_success_probs graph w gammaOpt timeOpt m) hm)
          max_probability := search_success_probs graph w gammaOpt timeOpt m
            (np_argmax (search_success_probs graph w gammaOpt timeOpt m) hm)
          times := search_times n timeOpt m
          success_probs := search_success_probs graph w gammaOpt timeOpt m } := by
  unfold search_continuous_walk
  rw [hw]
  dsimp only
  rw [dif_pos hm]

/-- C1. Loading the spectral search module fails before any search operation
can run: `search.py` does `from .graph_utils import adjacency_hamiltonian`,
but `graph_utils` binds no such name (only `continuous_walk` does), so the
module-level import raises an `ImportError`-class failure and no caller can
reach `build_search_hamiltonian`, `search_continuous_walk`, or
`benchmark_search` through the search module. -/
theorem search_module_import_error :
    load_search_module = Except.error ("ImportError") ∧
    (("adjacency_hamiltonian") ∉ graph_utils_names) ∧
    (("adjacency_hamiltonian") ∈ continuous_walk_names) :=
  ⟨by rfl, by decide, by decide⟩

/-- C2 (code evaluated at the failing input). On the complete graph on two
nodes, `adjacency_hamiltonian` returns the adjacency matrix `+A` itself,
which differs from the `H = -gamma * A` promised by the spec and by the
function's own docstring (at the default scaling `gamma = 1` the promise is
`-A`). -/
theorem adjacency_hamiltonian_sign_divergence :
    adjacency_hamiltonian (build_complete_graph 2) = !![0, 1; 1, 0] ∧
    -(build_complete_graph 2).adj = !![0, -1; -1, 0] ∧
    adjacency_hamiltonian (build_complete_graph 2) ≠
      -(build_complete_graph 2).adj := by
  have h1 : adjacency_hamiltonian (build_complete_graph 2) = !![0, 1; 1, 0] := by
    ext i j
    fin_cases i <;> fin_cases j <;>
      simp [adjacency_hamiltonian, build_complete_graph]
  have h2 : -(build_complete_graph 2).adj = !![0, -1; -1, 0] := by
    ext i j
    fin_cases i <;> fin_cases j <;> simp [build_complete_graph]
  refine ⟨h1, h2, ?_⟩
  rw [h1, h2]
  intro h
  have h01 := congrFun (congrFun h 0) 1
  norm_num at h01

/-- C3 (counterexample). The claim says `build_search_hamiltonian` fails for
every negative marked-vertex index; but numpy wraps indices in `[-n, 0)`,
so on the complete graph on two nodes the index `-1` succeeds, putting the
oracle at the wrapped position 1. -/
theorem negative_marked_vertex_accepted :
    ((-1 : ℤ) < 0) ∧
    build_search_hamiltonian (build_complete_graph 2) (-1) (1 : ℚ) =
      Except.ok (!![0, -1; -1, 1]) := by
  have hidx : npIndex 2 (-1) = some 1 := by decide
  refine ⟨by decide, ?_⟩
  rw [build_search_hamiltonian_of_index (build_complete_graph 2) (-1) 1 1 hidx]
  congr 1
  ext i j
  fin_cases i <;> fin_cases j <;>
    norm_num [search_hamiltonian_core, oracleMatrix, build_complete_graph,
      Matrix.smul_apply, Matrix.map_apply, Rat.cast_id]

/-- C3 (amended). `build_search_hamiltonian(graph, w, gamma)` fails with an
`IndexError`-class condition if and only if `w` is outside `[-N, N)`:
indices in `[0, N)` address the marked vertex directly, indices in
`[-N, 0)` wrap around numpy-style to `N + w`, and in either case the call
succeeds as a pure function of its inputs. -/
theorem build_search_hamiltonian_fails_iff {n : ℕ} (graph : Graph n)
    (marked_vertex : ℤ) (gamma : ℚ) :
    build_search_hamiltonian graph marked_vertex gamma =
        Except.error ("IndexError") ↔
      (marked_vertex < -(n : ℤ) ∨ (n : ℤ) ≤ marked_vertex) := by
  rw [← npIndex_eq_none_iff n marked_vertex]
  unfold build_search_hamiltonian
  rcases h : npIndex n marked_vertex with _ | w <;> simp [h]

/-- C4 (counterexample). The claim says an unsupported `coin_type` is
rejected at circuit-build time; but the builder validates nothing: the
string `foo` silently builds and returns a circuit. -/
theorem unknown_coin_type_builds_silently :
    (("foo" : String) ≠ ("hadamard")) ∧ (("foo" : String) ≠ ("grover")) ∧
    (build_coined_walk_circuit 2 1 ("foo")).isOk = true := by
  decide

/-- C4 (amended). For every `coin_type` other than the string `hadamard` -
in particular for every unsupported string - `build_coined_walk_circuit`
reports no error: it silently builds exactly the circuit it would build for
the Grover coin. -/
theorem coin_type_fallback_to_grover (n_position_qubits n_steps : ℕ)
    (coin_type : String) (h : coin_type ≠ ("hadamard")) :
    build_coined_walk_circuit n_position_qubits n_steps coin_type =
      build_coined_walk_circuit n_position_qubits n_steps ("grover") := by
  have hg : ((("grover" : String) = ("hadamard")) = False) :=
    eq_false (by decide)
  simp only [build_coined_walk_circuit, walk_step, eq_false h, hg,
    if_false, false_and]

theorem coin_type_fallback_to_grover_witness :
    (("foo" : String) ≠ ("hadamard")) ∧
    build_coined_walk_circuit 2 3 ("foo") =
      build_coined_walk_circuit 2 3 ("grover") :=
  ⟨by decide, coin_type_fallback_to_grover 2 3 ("foo") (by decide)⟩

/-- C5 (code evaluated at the failing input). On the complete graph on two
nodes with marked vertex 0 and `gamma = 1`, the search Hamiltonian has
entry `(0, 1) = -1` while the plain `adjacency_hamiltonian` has entry
`(0, 1) = +1`: the two matrices differ at an off-diagonal entry, not only
at the marked diagonal entry, because `adjacency_hamiltonian` never applies
the `-gamma` scaling its docstring promises. -/
theorem search_vs_plain_hamiltonian_offdiagonal :
    build_search_hamiltonian (build_complete_graph 2) 0 (1 : ℚ) =
      Except.ok (!![1, -1; -1, 0]) ∧
    adjacency_hamiltonian (build_complete_graph 2) = !![0, 1; 1, 0] ∧
    ((!![(1 : ℚ), -1; -1, 0]) 0 1 ≠ (!![(0 : ℚ), 1; 1, 0]) 0 1) := by
  have hidx : npIndex 2 0 = some 0 := by decide
  refine ⟨?_, ?_, by norm_num⟩
  · rw [build_search_hamiltonian_of_index (build_complete_graph 2) 0 1 0 hidx]
    congr 1
    ext i j
    fin_cases i <;> fin_cases j <;>
      norm_num [search_hamiltonian_core, oracleMatrix, build_complete_graph,
        Matrix.smul_apply, Matrix.map_apply, Rat.cast_id]
  · ext i j
    fin_cases i <;> fin_cases j <;>
      simp [adjacency_hamiltonian, build_complete_graph]

/-- C6. For every graph and valid marked vertex (and any sampling
parameters with at least one sample), `search_continuous_walk` returns
`max_probability` equal to the maximum of the computed success-probability
sequence and `optimal_time` equal to the sampled time at the index
achieving that maximum: every sample is bounded by `max_probability`, and
some index attains it with its time reported as `optimal_time`. -/
theorem search_reports_running_max {n : ℕ} (graph : Graph n)
    (marked_vertex : ℤ) (gammaOpt timeOpt : Option ℝ) (n_time_steps : ℕ)
    (h0 : 0 ≤ marked_vertex) (hn : marked_vertex < (n : ℤ))
    (hm : 0 < n_time_steps) :
    ∃ r : SearchResult n_time_steps,
      search_continuous_walk graph marked_vertex gammaOpt timeOpt n_time_steps =
        Except.ok r ∧
      (∀ i, r.success_probs i ≤ r.max_probability) ∧
      (∃ j, r.success_probs j = r.max_probability ∧
        r.times j = r.optimal_time) := by
  refine ⟨_, search_continuous_walk_ok graph marked_vertex gammaOpt timeOpt
    n_time_steps ⟨marked_vertex.toNat, by omega⟩
    (npIndex_of_valid n marked_vertex h0 hn) hm, ?_, ?_⟩
  · intro i
    exact np_argmax_is_max _ hm i
  · exact ⟨np_argmax _ hm, rfl, rfl⟩

theorem search_reports_running_max_witness :
    (0 : ℤ) ≤ 1 ∧ (1 : ℤ) < 3 ∧ 0 < 200 ∧
    ∃ r : SearchResult 200,
      search_continuous_walk (build_complete_graph 3) 1 none none 200 =
        Except.ok r ∧
      (∀ i, r.success_probs i ≤ r.max_probability) ∧
      (∃ j, r.success_probs j = r.max_probability ∧
        r.times j = r.optimal_time) :=
  ⟨by decide, by decide, by decide,
    search_reports_running_max (build_complete_graph 3) 1 none none 200
      (by decide) (by decide) (by decide)⟩

/-- C7. Zero-time identity: for every graph, initial node and coupling,
evolving for time 0 returns exactly the input distribution, i.e. the
probability vector that is 1 at the initial node and 0 elsewhere. -/
theorem evolve_zero_time {n : ℕ} (graph : Graph n) (initial_node : Fin n)
    (gamma : ℝ) :
    (evolve_continuous_walk graph initial_node 0 gamma).probabilities =
      fun j => if j = initial_node then 1 else 0 := by
  funext j
  show Complex.normSq
    ((evolve_operator graph 0 gamma).mulVec (basis_state n initial_node) j) = _
  unfold evolve_operator
  rw [Complex.ofReal_zero, mul_zero, zero_smul, NormedSpace.exp_zero,
    Matrix.one_mulVec]
  by_cases h : j = initial_node <;> simp [basis_state, h]

/-- C8. The sweep output is indexed consistently with the input time
sequence: the returned `times` is the input sequence, and row `i` of
`prob_matrix` is exactly the single-time evolution at `time_range[i]`. -/
theorem sweep_indexed_consistently {n : ℕ} (graph : Graph n)
    (initial_node : Fin n) (time_range : List ℝ) (gamma : ℝ)
    (i : Fin time_range.length) :
    (sweep_evolution graph initial_node time_range gamma).times = time_range ∧
    (sweep_evolution graph initial_node time_range gamma).prob_matrix[(i : ℕ)]? =
      some (evolve_continuous_walk graph initial_node (time_range.get i)
        gamma).probabilities := by
  refine ⟨rfl, ?_⟩
  show (time_range.map fun t =>
    (evolve_continuous_walk graph initial_node t gamma).probabilities)[(i : ℕ)]? = _
  rw [List.getElem?_map, List.getElem?_eq_getElem i.isLt]
  simp [List.get_eq_getElem]

/-- C9. Unitarity: for every graph-derived Hamiltonian (real symmetric
adjacency, any real coupling) and every real time, the probability vector
returned by `evolve_continuous_walk` sums to 1 within the 1e-6 tolerance
(the embedding proves the sum exactly 1, hence within tolerance). -/
theorem evolve_unitarity {n : ℕ} (graph : Graph n) (initial_node : Fin n)
    (time gamma : ℝ) :
    |(∑ j, (evolve_continuous_walk graph initial_node time gamma).probabilities j)
        - 1| ≤ 1 / 1000000 := by
  have hsum :
      (∑ j, (evolve_continuous_walk graph initial_node time gamma).probabilities j)
        = 1 := by
    show (∑ j, Complex.normSq
      ((evolve_operator graph time gamma).mulVec (basis_state n initial_node) j)) = 1
    rw [sum_normSq_mulVec_of_unitary _ (evolve_operator_unitary graph time gamma)]
    simp [basis_state, apply_ite Complex.normSq]
  rw [hsum]
  norm_num

/-- C10. For every graph with a valid marked vertex (so `n ≥ 1`) and at
least one sampled time, the reported `max_probability` is at least `1/n`:
the sampled time sequence starts at `t = 0`, where the uniform
superposition places probability exactly `1/n` on the marked vertex, and
the reported maximum is no smaller than any sample. -/
theorem search_max_probability_at_least_uniform {n : ℕ} (graph : Graph n)
    (marked_vertex : ℤ) (gammaOpt timeOpt : Option ℝ) (n_time_steps : ℕ)
    (h0 : 0 ≤ marked_vertex) (hn : marked_vertex < (n : ℤ))
    (hm : 0 < n_time_steps) :
    ∃ r : SearchResult n_time_steps,
      search_continuous_walk graph marked_vertex gammaOpt timeOpt n_time_steps =
        Except.ok r ∧
      r.times ⟨0, hm⟩ = 0 ∧
      r.success_probs ⟨0, hm⟩ = 1 / (n : ℝ) ∧
      1 / (n : ℝ) ≤ r.max_probability := by
  have hsp0 : search_success_probs graph ⟨marked_vertex.toNat, by omega⟩
      gammaOpt timeOpt n_time_steps ⟨0, hm⟩ = 1 / (n : ℝ) := by
    unfold search_success_probs
    rw [show search_times n timeOpt n_time_steps ⟨0, hm⟩ = 0 from
      linspace_apply_zero 0 _ _ hm]
    rw [Complex.ofReal_zero, mul_zero, zero_smul, NormedSpace.exp_zero,
      Matrix.one_mulVec]
    unfold uniform_state
    rw [Complex.normSq_ofReal, div_mul_div_comm, one_mul,
      Real.mul_self_sqrt (Nat.cast_nonneg n)]
  refine ⟨_, search_continuous_walk_ok graph marked_vertex gammaOpt timeOpt
    n_time_steps ⟨marked_vertex.toNat, by omega⟩
    (npIndex_of_valid n marked_vertex h0 hn) hm, ?_, hsp0, ?_⟩
  · show search_times n timeOpt n_time_steps ⟨0, hm⟩ = 0
    exact linspace_apply_zero 0 _ _ hm
  · show 1 / (n : ℝ) ≤ search_success_probs graph ⟨marked_vertex.toNat, by omega⟩
      gammaOpt timeOpt n_time_steps (np_argmax _ hm)
    rw [← hsp0]
    exact np_argmax_is_max _ hm ⟨0, hm⟩

theorem search_max_probability_at_least_uniform_witness :
    (0 : ℤ) ≤ 0 ∧ (0 : ℤ) < 2 ∧ 0 < 200 ∧
    ∃ r : SearchResult 200,
      search_continuous_walk (build_complete_graph 2) 0 none none 200 =
        Except.ok r ∧
      r.times ⟨0, by decide⟩ = 0 ∧
      r.success_probs ⟨0, by decide⟩ = 1 / ((2 : ℕ) : ℝ) ∧
      1 / ((2 : ℕ) : ℝ) ≤ r.max_probability :=
  ⟨by decide, by decide, by decide,
    search_max_probability_at_least_uniform (build_complete_graph 2) 0
      none none 200 (by decide) (by decide) (by decide)⟩

end QuantumWalks
